import Mathlib

set_option maxRecDepth 100000
set_option maxHeartbeats 2000000

/-!
Verification of the PAC decompression core of `src/pac/pac_decompiler_refined.py`
and `src/pac/pac_decompiler_fixed.py`.

Strings are modelled as lists of character codes (`List Nat`); Python's
`ord`/`chr` round-trip is the identity on such codes, and the mask bytes come
from a latin-1 decode, so every mask element is the byte value itself.
The prediction table (a Python list of 262144 integers, initially all zero) is
modelled as an association list from hash values to stored bytes, with absent
keys reading as 0; `unlzp` only ever reads and writes single cells, so the two
representations agree observably.
-/

namespace PAC

/-- Character codes of a Lean string literal, used to transcribe the Python
string tables. -/
def str2c (s : String) : List Nat :=
  s.toList.map Char.toNat

/-- Read the prediction table at a hash index (`self.table[h]`); cells that
were never written hold 0, matching the all-zero initial Python list. -/
def tblGet (t : List (Nat × Nat)) (k : Nat) : Nat :=
  match t.find? (fun p => p.1 == k) with
  | some p => p.2
  | none => 0

/-- Write one cell of the prediction table (`self.table[h] = c`). -/
def tblSet (t : List (Nat × Nat)) (k v : Nat) : List (Nat × Nat) :=
  (k, v) :: t

/-- `self.hash_val = ((self.hash_val << 7) ^ char_code) & self.hash_mask`,
with `hash_mask = 262143 = (1 << 18) - 1`. -/
def hashStep (h c : Nat) : Nat :=
  ((h <<< 7) ^^^ c) &&& 262143

/-- The decoder state held on the Python object: `self.table` and
`self.hash_val`. -/
structure LZPState where
  table : List (Nat × Nat)
  hashVal : Nat
deriving DecidableEq

/-- What a call to `unlzp` returns (`(decompressed, data_used, mask_used)`)
together with the object state it leaves behind. -/
structure DecodeResult where
  out : List Nat
  dataUsed : Nat
  maskUsed : Nat
  state : LZPState
deriving DecidableEq

/-- Result of processing the bits of one mask byte: emitted bytes, data
cursor, table and hash afterwards. -/
structure BitsOut where
  out : List Nat
  dpos : Nat
  tbl : List (Nat × Nat)
  h : Nat
deriving DecidableEq

/-- Result of the outer mask-byte loop of `unlzp`. -/
structure LoopOut where
  out : List Nat
  dpos : Nat
  maskpos : Nat
  tbl : List (Nat × Nat)
  h : Nat
deriving DecidableEq

namespace LZPDecompressor

/-- One bit of `LZPDecompressor.unlzp` (pac_decompiler_refined.py lines
168-189): bit 1 reads the prediction table, bit 0 reads the data stream
(emitting 0 and storing 0 when the data stream is exhausted), and the rolling
hash advances over the emitted byte.  Returns
(emitted byte, data cursor, table, hash). -/
def step (t : List (Nat × Nat)) (h : Nat) (d : List Nat) (dpos : Nat)
    (bit : Bool) : Nat × Nat × List (Nat × Nat) × Nat :=
  if bit then
    let c := tblGet t h
    (c, dpos, t, hashStep h c)
  else
    if dpos < d.length then
      let c := d.getD dpos 0
      (c, dpos + 1, tblSet t h c, hashStep h c)
    else
      (0, dpos, tblSet t h 0, hashStep h 0)

/-- The inner loop `for bit_index in range(8)` of the refined `unlzp`:
`fuel` counts the bits still to process, `pos` is the current bit index, and
the loop stops as soon as `limit` decoded bytes have accumulated. -/
def bits (d : List Nat) (lim mb : Nat) :
    Nat → Nat → List (Nat × Nat) → Nat → Nat → Nat → BitsOut
  | 0, _, t, h, dpos, _ => ⟨[], dpos, t, h⟩
  | fuel + 1, pos, t, h, dpos, outLen =>
    if lim ≤ outLen then ⟨[], dpos, t, h⟩
    else
      match step t h d dpos (mb.testBit pos) with
      | (c, dpos1, t1, h1) =>
        match bits d lim mb fuel (pos + 1) t1 h1 dpos1 (outLen + 1) with
        | ⟨out, dpos2, t2, h2⟩ => ⟨c :: out, dpos2, t2, h2⟩

/-- The outer `while mask_pos < len(mask) and len(output) < limit` loop of the
refined `unlzp`, recursing over the unread mask bytes.  (The source's inner
`if mask_pos >= len(mask): break` on line 156 is unreachable, being implied
by the loop condition just checked.) -/
def loop (d : List Nat) (lim : Nat) :
    List Nat → List (Nat × Nat) → Nat → Nat → Nat → Nat → LoopOut
  | [], t, h, dpos, maskpos, _ => ⟨[], dpos, maskpos, t, h⟩
  | mb :: ms, t, h, dpos, maskpos, outLen =>
    if lim ≤ outLen then ⟨[], dpos, maskpos, t, h⟩
    else
      match bits d lim mb 8 0 t h dpos outLen with
      | ⟨out1, dpos1, t1, h1⟩ =>
        match loop d lim ms t1 h1 dpos1 (maskpos + 1) (outLen + out1.length) with
        | ⟨out2, dpos2, maskpos2, t2, h2⟩ =>
          ⟨out1 ++ out2, dpos2, maskpos2, t2, h2⟩

/-- `LZPDecompressor.unlzp` (pac_decompiler_refined.py lines 139-194).  Note
line 151: the rolling hash is reset to 0 at the start of every call; the
prediction table is carried over from the incoming state. -/
def unlzp (st : LZPState) (d m : List Nat) (lim : Nat) : DecodeResult :=
  match loop d lim m st.table 0 0 0 0 with
  | ⟨out, dpos, maskpos, t, h⟩ => ⟨out, dpos, maskpos, ⟨t, h⟩⟩

end LZPDecompressor

namespace FixedLZPDecompressor

/-- The `for i in range(8)` loop of `FixedLZPDecompressor.unlzp`
(pac_decompiler_fixed.py lines 162-189): bit 1 reads the prediction table;
bit 0 reads the data stream, but when the data stream is exhausted the loop
BREAKS without emitting anything (line 171-172).  No limit check inside the
byte.  (The source's `if not c_char: break` on line 177 can never fire: a
one-character Python string is always truthy, even for NUL.) -/
def bits (d : List Nat) (mb : Nat) :
    Nat → Nat → List (Nat × Nat) → Nat → Nat → BitsOut
  | 0, _, t, h, dpos => ⟨[], dpos, t, h⟩
  | fuel + 1, pos, t, h, dpos =>
    if mb.testBit pos then
      let c := tblGet t h
      match bits d mb fuel (pos + 1) t (hashStep h c) dpos with
      | ⟨out, dpos2, t2, h2⟩ => ⟨c :: out, dpos2, t2, h2⟩
    else
      if dpos < d.length then
        let c := d.getD dpos 0
        match bits d mb fuel (pos + 1) (tblSet t h c) (hashStep h c) (dpos + 1) with
        | ⟨out, dpos2, t2, h2⟩ => ⟨c :: out, dpos2, t2, h2⟩
      else
        ⟨[], dpos, t, h⟩

/-- The `while True` loop of the fixed `unlzp` (lines 146-201).  A full
8-character buffer is appended to the output and then the limit is checked; a
partial buffer (data stream exhausted mid-byte) is appended only if the loop
stops right after it (the final `if outpos < 8 and outpos > 0` on line 200) —
a partial buffer followed by another processed mask byte is dropped. -/
def loop (d : List Nat) (lim : Nat) :
    List Nat → List (Nat × Nat) → Nat → Nat → Nat → Nat → LoopOut
  | [], t, h, dpos, maskpos, _ => ⟨[], dpos, maskpos, t, h⟩
  | mb :: ms, t, h, dpos, maskpos, outLen =>
    match bits d mb 8 0 t h dpos with
    | ⟨out1, dpos1, t1, h1⟩ =>
      if out1.length == 8 then
        if lim ≤ outLen + 8 then ⟨out1, dpos1, maskpos + 1, t1, h1⟩
        else
          match loop d lim ms t1 h1 dpos1 (maskpos + 1) (outLen + 8) with
          | ⟨out2, dpos2, maskpos2, t2, h2⟩ =>
            ⟨out1 ++ out2, dpos2, maskpos2, t2, h2⟩
      else
        if lim ≤ outLen then ⟨out1, dpos1, maskpos + 1, t1, h1⟩
        else
          match ms with
          | [] => ⟨out1, dpos1, maskpos + 1, t1, h1⟩
          | m2 :: ms2 =>
            match loop d lim (m2 :: ms2) t1 h1 dpos1 (maskpos + 1) outLen with
            | ⟨out2, dpos2, maskpos2, t2, h2⟩ =>
              ⟨out2, dpos2, maskpos2, t2, h2⟩

/-- `FixedLZPDecompressor.unlzp` (pac_decompiler_fixed.py lines 117-206).
Line 143 is commented out in the source: the rolling hash is NOT reset, so
both the table and the hash of the incoming state are used. -/
def unlzp (st : LZPState) (d m : List Nat) (lim : Nat) : DecodeResult :=
  match loop d lim m st.table st.hashVal 0 0 0 with
  | ⟨out, dpos, maskpos, t, h⟩ => ⟨out, dpos, maskpos, ⟨t, h⟩⟩

end FixedLZPDecompressor

/-- Bool test that `pat` is a prefix of `l`, as Python's `str.replace` matcher
sees it. -/
def seqPre : List Nat → List Nat → Bool
  | [], _ => true
  | _ :: _, [] => false
  | a :: as, b :: bs => a == b && seqPre as bs

/-- Structural worker for `replaceAll`: `fuel` bounds the scan length so the
recursion is structural (and hence kernel-reducible); it is always called
with enough fuel, so the fuel-exhausted branch is never taken. -/
def replaceGo (pat rep : List Nat) : Nat → List Nat → List Nat
  | 0, l => l
  | _ + 1, [] => []
  | fuel + 1, c :: cs =>
    if 1 ≤ pat.length ∧ seqPre pat (c :: cs) = true then
      rep ++ replaceGo pat rep fuel ((c :: cs).drop pat.length)
    else
      c :: replaceGo pat rep fuel cs

/-- Python's `result.replace(pat, rep)`: scan left to right, replace every
non-overlapping occurrence of `pat` by `rep`.  (All patterns in the source
tables are non-empty; the `1 ≤ pat.length` guard inside `replaceGo` only
keeps the scan well-fuelled and never fails on them.) -/
def replaceAll (pat rep : List Nat) (s : List Nat) : List Nat :=
  replaceGo pat rep s.length s

/-- Bool test that `pat` occurs as a contiguous run inside `l`. -/
def containsSeq (pat : List Nat) : List Nat → Bool
  | [] => seqPre pat []
  | c :: cs => seqPre pat (c :: cs) || containsSeq pat cs

namespace LZPDecompressor

/-- The `patterns` dict of `LZPDecompressor.patternreplace` with
`lzpmask=True` (pac_decompiler_refined.py lines 52-57), in insertion order;
each pair is (key, value). -/
def maskPatterns : List (List Nat × List Nat) :=
  [ (str2c "AA", str2c "!"), (str2c "gA", str2c "@"),
    (str2c "AB", str2c "#"), (str2c "AQ", str2c "$"),
    (str2c "AE", str2c "%"), (str2c "AC", str2c "^"),
    (str2c "AI", str2c "*"), (str2c "Ag", str2c "("),
    (str2c "AD", str2c ")"), (str2c "Aw", str2c "["),
    (str2c "AM", str2c "]"), (str2c "Bg", str2c "-"),
    (str2c "CA", str2c ","), (str2c "IA", str2c "."),
    (str2c "BA", str2c "?") ]

/-- `LZPDecompressor.patternreplace(s, lzpmask=True)` (lines 39-67): for each
(key, value) pair, in insertion order, replace VALUE with KEY (the reverse of
the table's labelling).  With `lzpmask=False` the pattern dict is empty and
the function is the identity, so only the mask direction is modelled. -/
def patternreplace (s : List Nat) : List Nat :=
  maskPatterns.foldl (fun acc kv => replaceAll kv.2 kv.1 acc) s

/-- Modelled from the spec: the mask-alphabet decode direction ("expand
code→symbol", the table's natural `KEY: VALUE` direction).  The repository
only contains the encode direction (`patternreplace` with `lzpmask=True`);
the spec's round-trip property needs this inverse pass, applied over the same
15-entry table in the same order. -/
def maskAlphabetDecode (s : List Nat) : List Nat :=
  maskPatterns.foldl (fun acc kv => replaceAll kv.1 kv.2 acc) s

/-- The `patterns_ordered` list of `LZPDecompressor.patternexpand`
(pac_decompiler_refined.py lines 88-107): all 50 two-character codes first,
then the 50 single-character codes, each mapped to its expansion. -/
def patternsOrdered : List (List Nat × List Nat) :=
  [ (str2c "!A", str2c "porn"), (str2c "!B", str2c "film"),
    (str2c "!C", str2c "lord"), (str2c "!D", str2c "kino"),
    (str2c "!E", str2c "oker"), (str2c "!F", str2c "trad"),
    (str2c "!G", str2c "line"), (str2c "!H", str2c "game"),
    (str2c "!I", str2c "pdom"), (str2c "!J", str2c "tion"),
    (str2c "!K", str2c ".com"), (str2c "!L", str2c "leon"),
    (str2c "!M", str2c "port"), (str2c "!N", str2c "shop"),
    (str2c "!O", str2c "club"), (str2c "!P", str2c "prav"),
    (str2c "!Q", str2c "vest"), (str2c "!R", str2c "inco"),
    (str2c "!S", str2c "mark"), (str2c "!T", str2c "ital"),
    (str2c "!U", str2c "slot"), (str2c "!V", str2c "play"),
    (str2c "!W", str2c "eria"), (str2c "!X", str2c "russ"),
    (str2c "!Y", str2c "vide"), (str2c "!Z", str2c "tube"),
    (str2c "!@", str2c "medi"), (str2c "!#", str2c "ster"),
    (str2c "!$", str2c "star"), (str2c "!%", str2c "nter"),
    (str2c "!^", str2c "scho"), (str2c "!&", str2c "free"),
    (str2c "!*", str2c "enta"), (str2c "!(", str2c "best"),
    (str2c "!)", str2c "mega"), (str2c "!=", str2c "gama"),
    (str2c "!+", str2c "prof"), (str2c "!/", str2c "oney"),
    (str2c "!,", str2c "rypt"), (str2c "!<", str2c "kra3"),
    (str2c "!>", str2c "stor"), (str2c "!~", str2c "ture"),
    (str2c "![", str2c "tech"), (str2c "!]", str2c "ance"),
    (str2c "!\x7b", str2c "coin"), (str2c "!\x7d", str2c "seed"),
    (str2c "!`", str2c "anim"), (str2c "!:", str2c "stro"),
    (str2c "!;", str2c "ment"), (str2c "!?", str2c "site"),
    (str2c "A", str2c "in"), (str2c "B", str2c "an"),
    (str2c "C", str2c "er"), (str2c "D", str2c "ar"),
    (str2c "E", str2c "or"), (str2c "F", str2c "et"),
    (str2c "G", str2c "al"), (str2c "H", str2c "st"),
    (str2c "I", str2c "on"), (str2c "J", str2c "en"),
    (str2c "K", str2c "at"), (str2c "L", str2c "ro"),
    (str2c "M", str2c "es"), (str2c "N", str2c "as"),
    (str2c "O", str2c "el"), (str2c "P", str2c "it"),
    (str2c "Q", str2c "ch"), (str2c "R", str2c "am"),
    (str2c "S", str2c "ol"), (str2c "T", str2c "om"),
    (str2c "U", str2c "ra"), (str2c "V", str2c "ex"),
    (str2c "W", str2c "is"), (str2c "X", str2c "ic"),
    (str2c "Y", str2c "re"), (str2c "Z", str2c "os"),
    (str2c "@", str2c "ka"), (str2c "#", str2c "ot"),
    (str2c "$", str2c "us"), (str2c "%", str2c "ap"),
    (str2c "^", str2c "ov"), (str2c "&", str2c "im"),
    (str2c "*", str2c "-s"), (str2c "(", str2c "ad"),
    (str2c ")", str2c "il"), (str2c "=", str2c "op"),
    (str2c "+", str2c "ed"), (str2c "/", str2c "em"),
    (str2c ",", str2c "a-"), (str2c "<", str2c "od"),
    (str2c ">", str2c "ir"), (str2c "~", str2c "id"),
    (str2c "[", str2c "ob"), (str2c "]", str2c "ag"),
    (str2c "\x7b", str2c "ig"), (str2c "\x7d", str2c "ip"),
    (str2c "`", str2c "ok"), (str2c ":", str2c "e-"),
    (str2c ";", str2c "ec"), (str2c "?", str2c "un") ]

/-- `LZPDecompressor.patternexpand` (pac_decompiler_refined.py lines 69-114):
sequential whole-string replacement of KEY by VALUE, two-character codes
first, then single-character codes. -/
def patternexpand (s : List Nat) : List Nat :=
  patternsOrdered.foldl (fun acc kv => replaceAll kv.1 kv.2 acc) s

/-- Value of a standard base64 alphabet character ('A'-'Z', 'a'-'z', '0'-'9',
'+', '/'), `none` for anything else.  Part of the stdlib transport model. -/
def b64Val (c : Nat) : Option Nat :=
  if 65 ≤ c ∧ c ≤ 90 then some (c - 65)
  else if 97 ≤ c ∧ c ≤ 122 then some (c - 97 + 26)
  else if 48 ≤ c ∧ c ≤ 57 then some (c - 48 + 52)
  else if c = 43 then some 62
  else if c = 47 then some 63
  else none

/-- Modelled from the spec: the "compact text-safe binary transport
(6-bit-per-character alphabet, standard padding-tolerant)" decoder, i.e. the
Python standard library's `base64.b64decode` in its default non-strict mode,
which is not part of src.  Characters outside the alphabet are ignored; a
padding character ends decoding successfully once it completes the final
quad; decoding fails (`none`) when the stream ends inside a quad.  Arguments:
remaining input, quad position (0-3), accumulated bits, pad count. -/
def b64core : List Nat → Nat → Nat → Nat → Option (List Nat)
  | [], quadPos, _, _ => if quadPos = 0 then some [] else none
  | c :: cs, quadPos, leftchar, pads =>
    if c = 61 then
      if 2 ≤ quadPos ∧ 4 ≤ quadPos + (pads + 1) then some []
      else b64core cs quadPos leftchar (pads + 1)
    else
      match b64Val c with
      | none => b64core cs quadPos leftchar pads
      | some v =>
        let acc := (leftchar <<< 6) ||| v
        if quadPos = 0 then b64core cs 1 acc pads
        else if quadPos = 1 then
          (b64core cs 2 (acc &&& 15) pads).map (fun r => (acc >>> 4) :: r)
        else if quadPos = 2 then
          (b64core cs 3 (acc &&& 3) pads).map (fun r => (acc >>> 2) :: r)
        else
          (b64core cs 0 0 pads).map (fun r => (acc &&& 255) :: r)

/-- `base64.b64decode` on a list of character codes (stdlib model, see
`b64core`). -/
def b64decode (cs : List Nat) : Option (List Nat) :=
  b64core cs 0 0 0

/-- The padding step of `a2b` (lines 126-128): append '=' until the length is
a multiple of 4. -/
def a2bPad (s : List Nat) : List Nat :=
  let missing := s.length % 4
  if missing = 0 then s else s ++ List.replicate (4 - missing) 61

/-- `LZPDecompressor.a2b` (pac_decompiler_refined.py lines 116-137): apply
`patternreplace` with `lzpmask=True`, pad to the base64 block boundary,
base64-decode, and return the bytes (latin-1 keeps byte values, so the
returned string is the byte list itself).  Any decoding failure is caught:
the function then prints a warning and returns the empty string.  The Bool
records whether that warning branch was taken. -/
def a2b (encoded : List Nat) : List Nat × Bool :=
  match b64decode (a2bPad (patternreplace encoded)) with
  | some bs => (bs, false)
  | none => ([], true)

end LZPDecompressor

/-- What `decompress_domains` records for one (zone, length) group: the
stored text on success, or the `<LZP_ERROR: need .., got ..>` marker on a
shortfall, which carries the required count and the bytes actually
available. -/
inductive GroupResult where
  | ok (text : List Nat)
  | shortfall (required got : Nat)
deriving DecidableEq

/-- The state threaded through `decompress_domains`: the unread remainders of
the compressed data and decoded mask streams, the `leftover` buffer of
decoded-but-unconsumed bytes, and the decoder object's state. -/
structure ExtState where
  data : List Nat
  mask : List Nat
  leftover : List Nat
  dec : LZPState
deriving DecidableEq

/-- One (zone, length) group of `decompress_domains` (refined lines 461-507,
fixed lines 435-474): if `leftover` is short, request
`max(8192, requiredCount)` more bytes from `unlzp` and slice the consumed
stream prefixes off; then either slice out exactly `cnt` bytes and store
`expand` of them, or record a shortfall leaving the state untouched. -/
def extractStep
    (decode : LZPState → List Nat → List Nat → Nat → DecodeResult)
    (expand : List Nat → List Nat)
    (st : ExtState) (cnt : Nat) : GroupResult × ExtState :=
  let st1 :=
    if st.leftover.length < cnt then
      let r := decode st.dec st.data st.mask (max 8192 cnt)
      { data := st.data.drop r.dataUsed
        mask := st.mask.drop r.maskUsed
        leftover := st.leftover ++ r.out
        dec := r.state }
    else st
  if cnt ≤ st1.leftover.length then
    (GroupResult.ok (expand (st1.leftover.take cnt)),
     { st1 with leftover := st1.leftover.drop cnt })
  else
    (GroupResult.shortfall cnt st1.leftover.length, st1)

/-- The schedule traversal of `decompress_domains`, flattened to the ordered
list of (zone, length, requiredCount) entries the nested Python loops visit;
entries whose count is not positive are skipped (`continue`).  Returns the
recorded result of every processed entry, in order, plus the final state. -/
def runSchedule
    (decode : LZPState → List Nat → List Nat → Nat → DecodeResult)
    (expand : List Nat → List Nat) :
    ExtState → List (String × Nat × Nat) →
      List (String × Nat × Nat × GroupResult) × ExtState
  | st, [] => ([], st)
  | st, (z, len, cnt) :: rest =>
    if cnt = 0 then runSchedule decode expand st rest
    else
      match extractStep decode expand st cnt with
      | (r, st1) =>
        match runSchedule decode expand st1 rest with
        | (rs, st2) => ((z, len, cnt, r) :: rs, st2)

/-- `RefinedPACDecompiler.decompress_domains` (pac_decompiler_refined.py
lines 440-525): each successful slice is passed through `patternexpand`
before being stored. -/
def RefinedPACDecompiler.decompress_domains
    (st : ExtState) (sched : List (String × Nat × Nat)) :
    List (String × Nat × Nat × GroupResult) × ExtState :=
  runSchedule LZPDecompressor.unlzp LZPDecompressor.patternexpand st sched

/-- `FixedPACDecompiler.decompress_domains` (pac_decompiler_fixed.py lines
414-494): successful slices are stored as-is, with no expansion step. -/
def FixedPACDecompiler.decompress_domains
    (st : ExtState) (sched : List (String × Nat × Nat)) :
    List (String × Nat × Nat × GroupResult) × ExtState :=
  runSchedule FixedLZPDecompressor.unlzp (fun l => l) st sched

/-! ## General lemmas about the string-replacement passes -/

theorem seqPre_length {pat l : List Nat} (h : seqPre pat l = true) :
    pat.length ≤ l.length := by
  induction pat generalizing l with
  | nil => exact Nat.zero_le _
  | cons a as ih =>
    cases l with
    | nil => simp [seqPre] at h
    | cons b bs =>
      simp only [seqPre, Bool.and_eq_true] at h
      simpa using ih h.2

/-- The fuel of `replaceGo` is irrelevant as long as it covers the scanned
list. -/
theorem replaceGo_fuel (pat rep : List Nat) :
    ∀ (f : Nat) (l : List Nat), l.length ≤ f →
      replaceGo pat rep f l = replaceAll pat rep l := by
  intro f
  induction f using Nat.strong_induction_on with
  | _ f ih =>
    intro l hl
    cases l with
    | nil => cases f <;> rfl
    | cons c cs =>
      cases f with
      | zero => simp at hl
      | succ f =>
        simp only [List.length_cons] at hl
        simp only [replaceGo, replaceAll, List.length_cons]
        split
        · rename_i hm
          have hd : ((c :: cs).drop pat.length).length ≤ cs.length := by
            have := seqPre_length hm.2
            simp only [List.length_drop, List.length_cons]
            omega
          have hf : ((c :: cs).drop pat.length).length ≤ f := by
            simp only [List.length_drop, List.length_cons]
            omega
          rw [ih f (by omega) _ hf, ih cs.length (by omega) _ hd]
        · have hcs : cs.length ≤ f := by omega
          rw [ih f (by omega) _ hcs]
          rfl

theorem replaceAll_nil (pat rep : List Nat) : replaceAll pat rep [] = [] := by
  rfl

theorem replaceAll_cons (pat rep : List Nat) (c : Nat) (cs : List Nat) :
    replaceAll pat rep (c :: cs) =
      if 1 ≤ pat.length ∧ seqPre pat (c :: cs) = true then
        rep ++ replaceAll pat rep ((c :: cs).drop pat.length)
      else
        c :: replaceAll pat rep cs := by
  simp only [replaceAll, List.length_cons, replaceGo]
  split
  · rename_i hm
    have h2 : ((c :: cs).drop pat.length).length ≤ cs.length := by
      have := seqPre_length hm.2
      simp only [List.length_drop, List.length_cons]
      omega
    rw [replaceGo_fuel pat rep cs.length _ h2]
    rfl
  · rfl

/-- A replacement pass whose replacement is at least as long as its pattern
never shortens the string. -/
theorem replaceAll_length (pat rep : List Nat) (hlen : pat.length ≤ rep.length) :
    ∀ s : List Nat, s.length ≤ (replaceAll pat rep s).length := by
  have aux : ∀ n (s : List Nat), s.length ≤ n →
      s.length ≤ (replaceAll pat rep s).length := by
    intro n
    induction n with
    | zero =>
      intro s hs
      interval_cases h : s.length
      · rw [List.length_eq_zero] at h
        subst h
        simp [replaceAll_nil]
    | succ n ih =>
      intro s hs
      cases s with
      | nil => simp [replaceAll_nil]
      | cons c cs =>
        rw [replaceAll_cons]
        split
        · rename_i hmatch
          have hpre := seqPre_length hmatch.2
          have hdrop : ((c :: cs).drop pat.length).length ≤ n := by
            simp only [List.length_drop, List.length_cons]
            simp only [List.length_cons] at hs
            omega
          have := ih _ hdrop
          simp only [List.length_append, List.length_drop,
            List.length_cons] at *
          omega
        · have : cs.length ≤ n := by
            simp only [List.length_cons] at hs
            omega
          have := ih cs this
          simp only [List.length_cons]
          omega
  intro s
  exact aux s.length s le_rfl

/-- Folding replacement passes that never shorten never shortens. -/
theorem foldl_replaceAll_length :
    ∀ (ps : List (List Nat × List Nat)),
      (∀ kv ∈ ps, kv.1.length ≤ kv.2.length) →
      ∀ s : List Nat,
        s.length ≤ (ps.foldl (fun acc kv => replaceAll kv.1 kv.2 acc) s).length := by
  intro ps
  induction ps with
  | nil => intro _ s; simp
  | cons kv rest ih =>
    intro hall s
    have h1 : s.length ≤ (replaceAll kv.1 kv.2 s).length :=
      replaceAll_length kv.1 kv.2 (hall kv (by simp)) s
    have h2 := ih (fun p hp => hall p (by simp [hp])) (replaceAll kv.1 kv.2 s)
    simpa using le_trans h1 h2

/-- After replacing every occurrence of a pattern, the head of the result is
either the head of the replacement text or the original head character. -/
theorem replaceAll_cons_shape (pat rep : List Nat) (c : Nat) (cs : List Nat) :
    (∃ x, replaceAll pat rep (c :: cs) = rep ++ x) ∨
    (∃ x, replaceAll pat rep (c :: cs) = c :: x) := by
  rw [replaceAll_cons]
  split
  · exact Or.inl ⟨_, rfl⟩
  · exact Or.inr ⟨_, rfl⟩

/-- No occurrence of `"!A"` survives the first replacement pass of
`patternexpand`: the pass consumes every occurrence and `"porn"` can neither
end in `'!'` nor start with `'A'`, so no new occurrence is created. -/
theorem replaceAll_bangA_free (s : List Nat) :
    containsSeq [33, 65] (replaceAll [33, 65] [112, 111, 114, 110] s) = false := by
  have aux : ∀ n (s : List Nat), s.length ≤ n →
      containsSeq [33, 65] (replaceAll [33, 65] [112, 111, 114, 110] s) = false := by
    intro n
    induction n with
    | zero =>
      intro s hs
      interval_cases h : s.length
      · rw [List.length_eq_zero] at h
        subst h
        simp [replaceAll_nil, containsSeq, seqPre]
    | succ n ih =>
      intro s hs
      cases s with
      | nil => simp [replaceAll_nil, containsSeq, seqPre]
      | cons c cs =>
        rw [replaceAll_cons]
        split
        · rename_i hmatch
          have hd : List.drop ([33, 65] : List Nat).length (c :: cs) = cs.drop 1 := by
            simp
          have hlen : (cs.drop 1).length ≤ n := by
            simp only [List.length_drop]
            simp only [List.length_cons] at hs
            omega
          have hrec := ih (cs.drop 1) hlen
          rw [hd]
          simpa [containsSeq, seqPre] using hrec
        · rename_i hnomatch
          have hlen : cs.length ≤ n := by
            simp only [List.length_cons] at hs
            omega
          have hrec := ih cs hlen
          simp only [containsSeq, Bool.or_eq_false_iff]
          refine ⟨?_, hrec⟩
          by_cases hc : c = 33
          · subst hc
            have hpre : seqPre [33, 65] (33 :: cs) = false := by
              cases hb : seqPre [33, 65] (33 :: cs) with
              | false => rfl
              | true => exact absurd ⟨by decide, hb⟩ hnomatch
            have hcs : seqPre [65] cs = false := by
              simpa [seqPre] using hpre
            cases cs with
            | nil => simp [replaceAll_nil, seqPre]
            | cons c2 cs2 =>
              have hc2 : (65 == c2) = false := by
                simpa [seqPre] using hcs
              rcases replaceAll_cons_shape [33, 65] [112, 111, 114, 110] c2 cs2 with
                ⟨x, hx⟩ | ⟨x, hx⟩
              · rw [hx]
                simp [seqPre]
              · rw [hx]
                simp [seqPre, hc2]
          · simp [seqPre, Ne.symm hc]
  exact aux s.length s le_rfl

/-! ## General lemmas about the schedule traversal -/

/-- The traversal records exactly one result per schedule entry with a
positive count, no matter how many groups fall short: a shortfall never
aborts the remaining schedule. -/
theorem runSchedule_length
    (decode : LZPState → List Nat → List Nat → Nat → DecodeResult)
    (expand : List Nat → List Nat) :
    ∀ (sched : List (String × Nat × Nat)) (st : ExtState),
      (runSchedule decode expand st sched).1.length =
        (sched.filter fun e => e.2.2 != 0).length := by
  intro sched
  induction sched with
  | nil => intro st; simp [runSchedule]
  | cons e rest ih =>
    intro st
    obtain ⟨z, len, cnt⟩ := e
    by_cases hc : cnt = 0
    · subst hc
      simp [runSchedule, ih st, List.filter]
    · simp only [runSchedule, if_neg hc]
      rcases h1 : extractStep decode expand st cnt with ⟨r, st1⟩
      rcases h2 : runSchedule decode expand st1 rest with ⟨rs, st2⟩
      have hih := ih st1
      rw [h2] at hih
      simp only [h1, h2]
      simp [List.filter_cons, hc, hih]

/-- If one group comes out as a shortfall, the recorded numbers are the
required count and the strictly smaller `leftover` size after the request. -/
theorem extractStep_shortfall
    (decode : LZPState → List Nat → List Nat → Nat → DecodeResult)
    (expand : List Nat → List Nat) (st : ExtState) (cnt req got : Nat)
    (h : (extractStep decode expand st cnt).1 = GroupResult.shortfall req got) :
    req = cnt ∧ got < req := by
  simp only [extractStep] at h
  split at h <;> split at h <;> rename_i hcond <;> simp at h hcond <;> omega

/-- If one group succeeds, the stored text is `expand` of a slice of exactly
the required length. -/
theorem extractStep_ok
    (decode : LZPState → List Nat → List Nat → Nat → DecodeResult)
    (expand : List Nat → List Nat) (st : ExtState) (cnt : Nat) (t : List Nat)
    (h : (extractStep decode expand st cnt).1 = GroupResult.ok t) :
    ∃ u : List Nat, u.length = cnt ∧ t = expand u := by
  simp only [extractStep] at h
  split at h <;> split at h <;> rename_i hcond <;> simp at h hcond
  · exact ⟨_, by simp [List.length_take]; omega, h.symm⟩
  · exact ⟨_, by simp [List.length_take]; omega, h.symm⟩

/-- Every shortfall the traversal records carries the entry's required count
and the strictly smaller number of bytes that were actually available. -/
theorem runSchedule_shortfall_shape
    (decode : LZPState → List Nat → List Nat → Nat → DecodeResult)
    (expand : List Nat → List Nat) :
    ∀ (sched : List (String × Nat × Nat)) (st : ExtState)
      (z : String) (l c req got : Nat),
      (z, l, c, GroupResult.shortfall req got) ∈
        (runSchedule decode expand st sched).1 →
      req = c ∧ got < req := by
  intro sched
  induction sched with
  | nil => intro st z l c req got h; simp [runSchedule] at h
  | cons e rest ih =>
    intro st z l c req got h
    obtain ⟨z0, len0, cnt0⟩ := e
    by_cases hc : cnt0 = 0
    · subst hc
      simp only [runSchedule, if_pos rfl] at h
      exact ih st z l c req got h
    · simp only [runSchedule, if_neg hc] at h
      rcases h1 : extractStep decode expand st cnt0 with ⟨r, st1⟩
      rw [h1] at h
      rcases h2 : runSchedule decode expand st1 rest with ⟨rs, st2⟩
      rw [h2] at h
      simp only [List.mem_cons, Prod.mk.injEq] at h
      rcases h with ⟨_, _, hcnt, hr⟩ | h
      · have hfst : (extractStep decode expand st cnt0).1 =
            GroupResult.shortfall req got := by
          rw [h1, ← hr]
        have := extractStep_shortfall decode expand st cnt0 req got hfst
        exact ⟨hcnt ▸ this.1, this.2⟩
      · exact ih st1 z l c req got (by rw [h2]; exact h)

/-- Every success the traversal records stores `expand` of a slice whose
length is exactly the entry's required count. -/
theorem runSchedule_ok_shape
    (decode : LZPState → List Nat → List Nat → Nat → DecodeResult)
    (expand : List Nat → List Nat) :
    ∀ (sched : List (String × Nat × Nat)) (st : ExtState)
      (z : String) (l c : Nat) (t : List Nat),
      (z, l, c, GroupResult.ok t) ∈ (runSchedule decode expand st sched).1 →
      ∃ u : List Nat, u.length = c ∧ t = expand u := by
  intro sched
  induction sched with
  | nil => intro st z l c t h; simp [runSchedule] at h
  | cons e rest ih =>
    intro st z l c t h
    obtain ⟨z0, len0, cnt0⟩ := e
    by_cases hc : cnt0 = 0
    · subst hc
      simp only [runSchedule, if_pos rfl] at h
      exact ih st z l c t h
    · simp only [runSchedule, if_neg hc] at h
      rcases h1 : extractStep decode expand st cnt0 with ⟨r, st1⟩
      rw [h1] at h
      rcases h2 : runSchedule decode expand st1 rest with ⟨rs, st2⟩
      rw [h2] at h
      simp only [List.mem_cons, Prod.mk.injEq] at h
      rcases h with ⟨_, _, hcnt, hr⟩ | h
      · have hfst : (extractStep decode expand st cnt0).1 = GroupResult.ok t := by
          rw [h1, ← hr]
        obtain ⟨u, hu, ht⟩ := extractStep_ok decode expand st cnt0 t hfst
        exact ⟨u, hcnt ▸ hu, ht⟩
      · exact ih st1 z l c t (by rw [h2]; exact h)

namespace LZPDecompressor

/-! Structural equations and invariants of the refined decoder loops. -/

theorem step_true (t : List (Nat × Nat)) (h : Nat) (d : List Nat) (dpos : Nat) :
    step t h d dpos true =
      (tblGet t h, dpos, t, hashStep h (tblGet t h)) := rfl

theorem step_false_read (t : List (Nat × Nat)) (h : Nat) (d : List Nat)
    (dpos : Nat) (hd : dpos < d.length) :
    step t h d dpos false =
      (d.getD dpos 0, dpos + 1, tblSet t h (d.getD dpos 0),
       hashStep h (d.getD dpos 0)) := by
  simp [step, hd]

theorem step_false_exhausted (t : List (Nat × Nat)) (h : Nat) (d : List Nat)
    (dpos : Nat) (hd : d.length ≤ dpos) :
    step t h d dpos false = (0, dpos, tblSet t h 0, hashStep h 0) := by
  simp [step, Nat.not_lt.2 hd]

theorem bits_zero (d : List Nat) (lim mb pos : Nat) (t : List (Nat × Nat))
    (h dpos outLen : Nat) :
    bits d lim mb 0 pos t h dpos outLen = ⟨[], dpos, t, h⟩ := rfl

theorem bits_exit (d : List Nat) (lim mb fuel pos : Nat) (t : List (Nat × Nat))
    (h dpos outLen : Nat) (hlim : lim ≤ outLen) :
    bits d lim mb (fuel + 1) pos t h dpos outLen = ⟨[], dpos, t, h⟩ := by
  simp [bits, hlim]

theorem bits_succ (d : List Nat) (lim mb fuel pos : Nat) (t : List (Nat × Nat))
    (h dpos outLen : Nat) (hlim : outLen < lim) :
    bits d lim mb (fuel + 1) pos t h dpos outLen =
      ⟨(step t h d dpos (mb.testBit pos)).1 ::
         (bits d lim mb fuel (pos + 1)
           (step t h d dpos (mb.testBit pos)).2.2.1
           (step t h d dpos (mb.testBit pos)).2.2.2
           (step t h d dpos (mb.testBit pos)).2.1 (outLen + 1)).out,
       (bits d lim mb fuel (pos + 1)
           (step t h d dpos (mb.testBit pos)).2.2.1
           (step t h d dpos (mb.testBit pos)).2.2.2
           (step t h d dpos (mb.testBit pos)).2.1 (outLen + 1)).dpos,
       (bits d lim mb fuel (pos + 1)
           (step t h d dpos (mb.testBit pos)).2.2.1
           (step t h d dpos (mb.testBit pos)).2.2.2
           (step t h d dpos (mb.testBit pos)).2.1 (outLen + 1)).tbl,
       (bits d lim mb fuel (pos + 1)
           (step t h d dpos (mb.testBit pos)).2.2.1
           (step t h d dpos (mb.testBit pos)).2.2.2
           (step t h d dpos (mb.testBit pos)).2.1 (outLen + 1)).h⟩ := by
  rw [bits, if_neg (Nat.not_le.mpr hlim)]

theorem loop_nil (d : List Nat) (lim : Nat) (t : List (Nat × Nat))
    (h dpos maskpos outLen : Nat) :
    loop d lim [] t h dpos maskpos outLen = ⟨[], dpos, maskpos, t, h⟩ := rfl

theorem loop_exit (d : List Nat) (lim mb : Nat) (ms : List Nat)
    (t : List (Nat × Nat)) (h dpos maskpos outLen : Nat) (hlim : lim ≤ outLen) :
    loop d lim (mb :: ms) t h dpos maskpos outLen = ⟨[], dpos, maskpos, t, h⟩ := by
  simp [loop, hlim]

theorem loop_succ (d : List Nat) (lim mb : Nat) (ms : List Nat)
    (t : List (Nat × Nat)) (h dpos maskpos outLen : Nat) (hlim : outLen < lim) :
    loop d lim (mb :: ms) t h dpos maskpos outLen =
      ⟨(bits d lim mb 8 0 t h dpos outLen).out ++
         (loop d lim ms (bits d lim mb 8 0 t h dpos outLen).tbl
           (bits d lim mb 8 0 t h dpos outLen).h
           (bits d lim mb 8 0 t h dpos outLen).dpos (maskpos + 1)
           (outLen + (bits d lim mb 8 0 t h dpos outLen).out.length)).out,
       (loop d lim ms (bits d lim mb 8 0 t h dpos outLen).tbl
           (bits d lim mb 8 0 t h dpos outLen).h
           (bits d lim mb 8 0 t h dpos outLen).dpos (maskpos + 1)
           (outLen + (bits d lim mb 8 0 t h dpos outLen).out.length)).dpos,
       (loop d lim ms (bits d lim mb 8 0 t h dpos outLen).tbl
           (bits d lim mb 8 0 t h dpos outLen).h
           (bits d lim mb 8 0 t h dpos outLen).dpos (maskpos + 1)
           (outLen + (bits d lim mb 8 0 t h dpos outLen).out.length)).maskpos,
       (loop d lim ms (bits d lim mb 8 0 t h dpos outLen).tbl
           (bits d lim mb 8 0 t h dpos outLen).h
           (bits d lim mb 8 0 t h dpos outLen).dpos (maskpos + 1)
           (outLen + (bits d lim mb 8 0 t h dpos outLen).out.length)).tbl,
       (loop d lim ms (bits d lim mb 8 0 t h dpos outLen).tbl
           (bits d lim mb 8 0 t h dpos outLen).h
           (bits d lim mb 8 0 t h dpos outLen).dpos (maskpos + 1)
           (outLen + (bits d lim mb 8 0 t h dpos outLen).out.length)).h⟩ := by
  rw [loop, if_neg (Nat.not_le.mpr hlim)]

/-- The unlzp call packaged through its outer loop. -/
theorem unlzp_eq (st : LZPState) (d m : List Nat) (lim : Nat) :
    unlzp st d m lim =
      ⟨(loop d lim m st.table 0 0 0 0).out,
       (loop d lim m st.table 0 0 0 0).dpos,
       (loop d lim m st.table 0 0 0 0).maskpos,
       ⟨(loop d lim m st.table 0 0 0 0).tbl,
        (loop d lim m st.table 0 0 0 0).h⟩⟩ := by
  rfl

theorem bits_out_len (d : List Nat) (lim mb : Nat) :
    ∀ (fuel pos : Nat) (t : List (Nat × Nat)) (h dpos outLen : Nat),
      (bits d lim mb fuel pos t h dpos outLen).out.length ≤ lim - outLen := by
  intro fuel
  induction fuel with
  | zero => intro pos t h dpos outLen; simp [bits_zero]
  | succ fuel ih =>
    intro pos t h dpos outLen
    by_cases hlim : lim ≤ outLen
    · simp [bits_exit _ _ _ _ _ _ _ _ _ hlim]
    · rw [bits_succ _ _ _ _ _ _ _ _ _ (by omega)]
      dsimp only
      have := ih (pos + 1)
        (step t h d dpos (mb.testBit pos)).2.2.1
        (step t h d dpos (mb.testBit pos)).2.2.2
        (step t h d dpos (mb.testBit pos)).2.1 (outLen + 1)
      simp only [List.length_cons]
      omega

theorem loop_out_len (d : List Nat) (lim : Nat) :
    ∀ (ms : List Nat) (t : List (Nat × Nat)) (h dpos maskpos outLen : Nat),
      (loop d lim ms t h dpos maskpos outLen).out.length ≤ lim - outLen := by
  intro ms
  induction ms with
  | nil => intro t h dpos maskpos outLen; simp [loop_nil]
  | cons mb ms ih =>
    intro t h dpos maskpos outLen
    by_cases hlim : lim ≤ outLen
    · simp [loop_exit _ _ _ _ _ _ _ _ _ hlim]
    · rw [loop_succ _ _ _ _ _ _ _ _ _ (by omega)]
      dsimp only
      have h1 := bits_out_len d lim mb 8 0 t h dpos outLen
      have h2 := ih (bits d lim mb 8 0 t h dpos outLen).tbl
        (bits d lim mb 8 0 t h dpos outLen).h
        (bits d lim mb 8 0 t h dpos outLen).dpos (maskpos + 1)
        (outLen + (bits d lim mb 8 0 t h dpos outLen).out.length)
      simp only [List.length_append]
      omega

theorem step_dpos_le (t : List (Nat × Nat)) (h : Nat) (d : List Nat)
    (dpos : Nat) (b : Bool) : dpos ≤ (step t h d dpos b).2.1 := by
  cases b
  · by_cases hd : dpos < d.length
    · rw [step_false_read _ _ _ _ hd]
      exact Nat.le_succ dpos
    · rw [step_false_exhausted _ _ _ _ (by omega)]
  · rw [step_true]

theorem step_dpos_bound (t : List (Nat × Nat)) (h : Nat) (d : List Nat)
    (dpos : Nat) (b : Bool) (hd : dpos ≤ d.length) :
    (step t h d dpos b).2.1 ≤ d.length := by
  cases b
  · by_cases hlt : dpos < d.length
    · rw [step_false_read _ _ _ _ hlt]
      exact hlt
    · rw [step_false_exhausted _ _ _ _ (by omega)]
      exact hd
  · rw [step_true]
    exact hd

theorem bits_dpos_mono (d : List Nat) (lim mb : Nat) :
    ∀ (fuel pos : Nat) (t : List (Nat × Nat)) (h dpos outLen : Nat),
      dpos ≤ (bits d lim mb fuel pos t h dpos outLen).dpos := by
  intro fuel
  induction fuel with
  | zero => intro pos t h dpos outLen; simp [bits_zero]
  | succ fuel ih =>
    intro pos t h dpos outLen
    by_cases hlim : lim ≤ outLen
    · simp [bits_exit _ _ _ _ _ _ _ _ _ hlim]
    · rw [bits_succ _ _ _ _ _ _ _ _ _ (by omega)]
      dsimp only
      have h1 := step_dpos_le t h d dpos (mb.testBit pos)
      have h2 := ih (pos + 1)
        (step t h d dpos (mb.testBit pos)).2.2.1
        (step t h d dpos (mb.testBit pos)).2.2.2
        (step t h d dpos (mb.testBit pos)).2.1 (outLen + 1)
      omega

theorem bits_dpos_bound (d : List Nat) (lim mb : Nat) :
    ∀ (fuel pos : Nat) (t : List (Nat × Nat)) (h dpos outLen : Nat),
      dpos ≤ d.length →
      (bits d lim mb fuel pos t h dpos outLen).dpos ≤ d.length := by
  intro fuel
  induction fuel with
  | zero => intro pos t h dpos outLen hd; simpa [bits_zero] using hd
  | succ fuel ih =>
    intro pos t h dpos outLen hd
    by_cases hlim : lim ≤ outLen
    · simpa [bits_exit _ _ _ _ _ _ _ _ _ hlim] using hd
    · rw [bits_succ _ _ _ _ _ _ _ _ _ (by omega)]
      dsimp only
      exact ih (pos + 1) _ _ _ _ (step_dpos_bound t h d dpos (mb.testBit pos) hd)

theorem loop_dpos_mono (d : List Nat) (lim : Nat) :
    ∀ (ms : List Nat) (t : List (Nat × Nat)) (h dpos maskpos outLen : Nat),
      dpos ≤ (loop d lim ms t h dpos maskpos outLen).dpos := by
  intro ms
  induction ms with
  | nil => intro t h dpos maskpos outLen; simp [loop_nil]
  | cons mb ms ih =>
    intro t h dpos maskpos outLen
    by_cases hlim : lim ≤ outLen
    · simp [loop_exit _ _ _ _ _ _ _ _ _ hlim]
    · rw [loop_succ _ _ _ _ _ _ _ _ _ (by omega)]
      dsimp only
      have h1 := bits_dpos_mono d lim mb 8 0 t h dpos outLen
      have h2 := ih (bits d lim mb 8 0 t h dpos outLen).tbl
        (bits d lim mb 8 0 t h dpos outLen).h
        (bits d lim mb 8 0 t h dpos outLen).dpos (maskpos + 1)
        (outLen + (bits d lim mb 8 0 t h dpos outLen).out.length)
      omega

theorem loop_dpos_bound (d : List Nat) (lim : Nat) :
    ∀ (ms : List Nat) (t : List (Nat × Nat)) (h dpos maskpos outLen : Nat),
      dpos ≤ d.length →
      (loop d lim ms t h dpos maskpos outLen).dpos ≤ d.length := by
  intro ms
  induction ms with
  | nil => intro t h dpos maskpos outLen hd; simpa [loop_nil] using hd
  | cons mb ms ih =>
    intro t h dpos maskpos outLen hd
    by_cases hlim : lim ≤ outLen
    · simpa [loop_exit _ _ _ _ _ _ _ _ _ hlim] using hd
    · rw [loop_succ _ _ _ _ _ _ _ _ _ (by omega)]
      dsimp only
      exact ih _ _ _ _ _ (bits_dpos_bound d lim mb 8 0 t h dpos outLen hd)

theorem loop_maskpos_mono (d : List Nat) (lim : Nat) :
    ∀ (ms : List Nat) (t : List (Nat × Nat)) (h dpos maskpos outLen : Nat),
      maskpos ≤ (loop d lim ms t h dpos maskpos outLen).maskpos := by
  intro ms
  induction ms with
  | nil => intro t h dpos maskpos outLen; simp [loop_nil]
  | cons mb ms ih =>
    intro t h dpos maskpos outLen
    by_cases hlim : lim ≤ outLen
    · simp [loop_exit _ _ _ _ _ _ _ _ _ hlim]
    · rw [loop_succ _ _ _ _ _ _ _ _ _ (by omega)]
      dsimp only
      have h2 := ih (bits d lim mb 8 0 t h dpos outLen).tbl
        (bits d lim mb 8 0 t h dpos outLen).h
        (bits d lim mb 8 0 t h dpos outLen).dpos (maskpos + 1)
        (outLen + (bits d lim mb 8 0 t h dpos outLen).out.length)
      omega

theorem loop_maskpos_bound (d : List Nat) (lim : Nat) :
    ∀ (ms : List Nat) (t : List (Nat × Nat)) (h dpos maskpos outLen : Nat),
      (loop d lim ms t h dpos maskpos outLen).maskpos ≤ maskpos + ms.length := by
  intro ms
  induction ms with
  | nil => intro t h dpos maskpos outLen; simp [loop_nil]
  | cons mb ms ih =>
    intro t h dpos maskpos outLen
    by_cases hlim : lim ≤ outLen
    · simp [loop_exit _ _ _ _ _ _ _ _ _ hlim]
    · rw [loop_succ _ _ _ _ _ _ _ _ _ (by omega)]
      dsimp only
      have h2 := ih (bits d lim mb 8 0 t h dpos outLen).tbl
        (bits d lim mb 8 0 t h dpos outLen).h
        (bits d lim mb 8 0 t h dpos outLen).dpos (maskpos + 1)
        (outLen + (bits d lim mb 8 0 t h dpos outLen).out.length)
      simp only [List.length_cons]
      omega

theorem step_data_take_true (t : List (Nat × Nat)) (h : Nat) (d : List Nat)
    (dpos N : Nat) :
    step t h (d.take N) dpos true = step t h d dpos true := rfl

theorem step_data_take_false (t : List (Nat × Nat)) (h : Nat) (d : List Nat)
    (dpos N : Nat) (hN : dpos < N ∨ d.length ≤ dpos) :
    step t h (d.take N) dpos false = step t h d dpos false := by
  by_cases hd : dpos < d.length
  · have hdN : dpos < N := by
      rcases hN with hN | hN
      · exact hN
      · omega
    have ht : dpos < (d.take N).length := by
      simp only [List.length_take]
      omega
    rw [step_false_read _ _ _ _ hd, step_false_read _ _ _ _ ht]
    have : (d.take N).getD dpos 0 = d.getD dpos 0 := by
      simp only [List.getD_eq_getElem?_getD]
      rw [List.getElem?_take_of_lt hdN]
    rw [this]
  · have h1 : d.length ≤ dpos := by omega
    have h2 : (d.take N).length ≤ dpos := by
      simp only [List.length_take]
      omega
    rw [step_false_exhausted _ _ _ _ h1, step_false_exhausted _ _ _ _ h2]

theorem bits_data_take (lim mb : Nat) (d : List Nat) :
    ∀ (fuel pos : Nat) (t : List (Nat × Nat)) (h dpos outLen N : Nat),
      (bits d lim mb fuel pos t h dpos outLen).dpos ≤ N →
      bits (d.take N) lim mb fuel pos t h dpos outLen =
        bits d lim mb fuel pos t h dpos outLen := by
  intro fuel
  induction fuel with
  | zero => intro pos t h dpos outLen N _; rfl
  | succ fuel ih =>
    intro pos t h dpos outLen N hN
    by_cases hlim : lim ≤ outLen
    · rw [bits_exit _ _ _ _ _ _ _ _ _ hlim, bits_exit _ _ _ _ _ _ _ _ _ hlim]
    · have hstep : step t h (d.take N) dpos (mb.testBit pos) =
          step t h d dpos (mb.testBit pos) := by
        cases hbit : mb.testBit pos
        · refine step_data_take_false t h d dpos N ?_
          by_cases hd : dpos < d.length
          · left
            rw [bits_succ _ _ _ _ _ _ _ _ _ (by omega)] at hN
            dsimp only at hN
            have hm := bits_dpos_mono d lim mb fuel (pos + 1)
              (step t h d dpos (mb.testBit pos)).2.2.1
              (step t h d dpos (mb.testBit pos)).2.2.2
              (step t h d dpos (mb.testBit pos)).2.1 (outLen + 1)
            rw [hbit] at hN
            have : (step t h d dpos false).2.1 = dpos + 1 := by
              rw [step_false_read _ _ _ _ hd]
            rw [hbit] at hm
            omega
          · right
            omega
        · rfl
      rw [bits_succ _ _ _ _ _ _ _ _ _ (by omega),
          bits_succ _ _ _ _ _ _ _ _ _ (by omega), hstep]
      rw [bits_succ _ _ _ _ _ _ _ _ _ (by omega)] at hN
      dsimp only at hN
      rw [ih (pos + 1) _ _ _ _ N hN]

theorem loop_data_take (lim : Nat) (d : List Nat) :
    ∀ (ms : List Nat) (t : List (Nat × Nat)) (h dpos maskpos outLen N : Nat),
      (loop d lim ms t h dpos maskpos outLen).dpos ≤ N →
      loop (d.take N) lim ms t h dpos maskpos outLen =
        loop d lim ms t h dpos maskpos outLen := by
  intro ms
  induction ms with
  | nil => intro t h dpos maskpos outLen N _; rfl
  | cons mb ms ih =>
    intro t h dpos maskpos outLen N hN
    by_cases hlim : lim ≤ outLen
    · rw [loop_exit _ _ _ _ _ _ _ _ _ hlim, loop_exit _ _ _ _ _ _ _ _ _ hlim]
    · rw [loop_succ _ _ _ _ _ _ _ _ _ (by omega)] at hN
      dsimp only at hN
      have hbn : (bits d lim mb 8 0 t h dpos outLen).dpos ≤ N := by
        have := loop_dpos_mono d lim ms
          (bits d lim mb 8 0 t h dpos outLen).tbl
          (bits d lim mb 8 0 t h dpos outLen).h
          (bits d lim mb 8 0 t h dpos outLen).dpos (maskpos + 1)
          (outLen + (bits d lim mb 8 0 t h dpos outLen).out.length)
        omega
      have hbits := bits_data_take lim mb d 8 0 t h dpos outLen N hbn
      rw [loop_succ _ _ _ _ _ _ _ _ _ (by omega),
          loop_succ _ _ _ _ _ _ _ _ _ (by omega), hbits]
      rw [ih _ _ _ _ _ N hN]

theorem loop_mask_take (d : List Nat) (lim : Nat) :
    ∀ (ms : List Nat) (t : List (Nat × Nat)) (h dpos maskpos outLen : Nat),
      loop d lim
        (ms.take ((loop d lim ms t h dpos maskpos outLen).maskpos - maskpos))
        t h dpos maskpos outLen =
      loop d lim ms t h dpos maskpos outLen := by
  intro ms
  induction ms with
  | nil => intro t h dpos maskpos outLen; rw [List.take_nil]
  | cons mb ms ih =>
    intro t h dpos maskpos outLen
    by_cases hlim : lim ≤ outLen
    · rw [loop_exit _ _ _ _ _ _ _ _ _ hlim]
      simp only [Nat.sub_self, List.take_zero]
      rw [loop_nil]
    · rw [loop_succ _ _ _ _ _ _ _ _ _ (by omega)]
      have hmono := loop_maskpos_mono d lim ms
        (bits d lim mb 8 0 t h dpos outLen).tbl
        (bits d lim mb 8 0 t h dpos outLen).h
        (bits d lim mb 8 0 t h dpos outLen).dpos (maskpos + 1)
        (outLen + (bits d lim mb 8 0 t h dpos outLen).out.length)
      have hk : (loop d lim ms
            (bits d lim mb 8 0 t h dpos outLen).tbl
            (bits d lim mb 8 0 t h dpos outLen).h
            (bits d lim mb 8 0 t h dpos outLen).dpos (maskpos + 1)
            (outLen + (bits d lim mb 8 0 t h dpos outLen).out.length)).maskpos
            - maskpos =
          ((loop d lim ms
            (bits d lim mb 8 0 t h dpos outLen).tbl
            (bits d lim mb 8 0 t h dpos outLen).h
            (bits d lim mb 8 0 t h dpos outLen).dpos (maskpos + 1)
            (outLen + (bits d lim mb 8 0 t h dpos outLen).out.length)).maskpos
            - (maskpos + 1)) + 1 := by
        omega
      rw [hk, List.take_succ_cons]
      rw [loop_succ _ _ _ _ _ _ _ _ _ (by omega)]
      rw [ih (bits d lim mb 8 0 t h dpos outLen).tbl
        (bits d lim mb 8 0 t h dpos outLen).h
        (bits d lim mb 8 0 t h dpos outLen).dpos (maskpos + 1)
        (outLen + (bits d lim mb 8 0 t h dpos outLen).out.length)]

end LZPDecompressor

namespace FixedLZPDecompressor

/-! Structural facts about the fixed decoder needed for the state-persistence
claim. -/

theorem bits_head_pred (d : List Nat) (mb : Nat) (fuel pos : Nat)
    (t : List (Nat × Nat)) (h dpos : Nat) (hbit : mb.testBit pos = true) :
    (bits d mb (fuel + 1) pos t h dpos).out =
      tblGet t h ::
        (bits d mb fuel (pos + 1) t (hashStep h (tblGet t h)) dpos).out := by
  rw [bits, if_pos hbit]

theorem loopF_nil (d : List Nat) (lim : Nat) (t : List (Nat × Nat))
    (h dpos maskpos outLen : Nat) :
    loop d lim [] t h dpos maskpos outLen = ⟨[], dpos, maskpos, t, h⟩ := rfl

/-- With a single mask byte, the output of the fixed outer loop is exactly the
output of that byte's bit loop, whichever exit branch is taken. -/
theorem loop_single_out (d : List Nat) (lim mb : Nat) (t : List (Nat × Nat))
    (h dpos maskpos outLen : Nat) :
    (loop d lim [mb] t h dpos maskpos outLen).out =
      (bits d mb 8 0 t h dpos).out := by
  rw [loop]
  rcases hb : bits d mb 8 0 t h dpos with ⟨o, a, b, c⟩
  dsimp only
  split_ifs with h1 h2
  · rfl
  · rw [loopF_nil]
    dsimp only
    exact List.append_nil o
  · rfl
  · rfl

/-- With a single mask byte whose low bit is set, the first emitted byte of
the fixed `unlzp` is the prediction-table entry at the INCOMING state's hash:
both the table and the rolling hash persist into the call. -/
theorem unlzp_single_head (st : LZPState) (d : List Nat) (mb lim : Nat)
    (hbit : mb.testBit 0 = true) :
    (unlzp st d [mb] lim).out.head? = some (tblGet st.table st.hashVal) := by
  have h0 : (unlzp st d [mb] lim).out =
      (loop d lim [mb] st.table st.hashVal 0 0 0).out := rfl
  rw [h0, loop_single_out]
  have hb : (bits d mb 8 0 st.table st.hashVal 0).out =
      tblGet st.table st.hashVal ::
        (bits d mb 7 1 st.table
          (hashStep st.hashVal (tblGet st.table st.hashVal)) 0).out :=
    bits_head_pred d mb 7 0 st.table st.hashVal 0 hbit
  rw [hb]
  rfl

end FixedLZPDecompressor

namespace LZPDecompressor

/-- With a set low bit in the first mask byte and a positive limit, the first
emitted byte of the refined `unlzp` is the table entry at hash 0 — the table
persists into the call, but the rolling hash has been reset to 0. -/
theorem unlzp_head_reset (st : LZPState) (d : List Nat) (mb : Nat)
    (ms : List Nat) (lim : Nat) (hlim : 1 ≤ lim) (hbit : mb.testBit 0 = true) :
    (unlzp st d (mb :: ms) lim).out.head? = some (tblGet st.table 0) := by
  have h0 : (unlzp st d (mb :: ms) lim).out =
      (loop d lim (mb :: ms) st.table 0 0 0 0).out := rfl
  rw [h0, loop_succ d lim mb ms st.table 0 0 0 0 (by omega)]
  dsimp only
  have hb : bits d lim mb 8 0 st.table 0 0 0 =
      ⟨(step st.table 0 d 0 (mb.testBit 0)).1 ::
         (bits d lim mb 7 1
           (step st.table 0 d 0 (mb.testBit 0)).2.2.1
           (step st.table 0 d 0 (mb.testBit 0)).2.2.2
           (step st.table 0 d 0 (mb.testBit 0)).2.1 1).out,
       (bits d lim mb 7 1
           (step st.table 0 d 0 (mb.testBit 0)).2.2.1
           (step st.table 0 d 0 (mb.testBit 0)).2.2.2
           (step st.table 0 d 0 (mb.testBit 0)).2.1 1).dpos,
       (bits d lim mb 7 1
           (step st.table 0 d 0 (mb.testBit 0)).2.2.1
           (step st.table 0 d 0 (mb.testBit 0)).2.2.2
           (step st.table 0 d 0 (mb.testBit 0)).2.1 1).tbl,
       (bits d lim mb 7 1
           (step st.table 0 d 0 (mb.testBit 0)).2.2.1
           (step st.table 0 d 0 (mb.testBit 0)).2.2.2
           (step st.table 0 d 0 (mb.testBit 0)).2.1 1).h⟩ :=
    bits_succ d lim mb 7 0 st.table 0 0 0 (by omega)
  rw [hb]
  dsimp only
  rw [hbit, step_true]
  rfl

end LZPDecompressor

/-- The padding step of `a2b` always reaches the base64 block boundary. -/
theorem a2bPad_mod (l : List Nat) :
    (LZPDecompressor.a2bPad l).length % 4 = 0 := by
  simp only [LZPDecompressor.a2bPad]
  split
  · rename_i h
    exact h
  · rename_i h
    simp only [List.length_append, List.length_replicate]
    omega

/-- C4 counterexample: with mask byte `0b00000011` (its two LOW bits set) the
decoder treats bits 0 and 1 as PREDICTED bits, reads nothing from the data
stream and emits two bytes from the untouched prediction table — not the two
literals `[0x41, 0x42]` the claim asserts. -/
theorem scenario_mask_bit_convention :
    (LZPDecompressor.unlzp ⟨[], 0⟩ [65, 66] [3] 2).out = [0, 0] ∧
    (LZPDecompressor.unlzp ⟨[], 0⟩ [65, 66] [3] 2).dataUsed = 0 ∧
    ¬ ((LZPDecompressor.unlzp ⟨[], 0⟩ [65, 66] [3] 2).out = [65, 66] ∧
       (LZPDecompressor.unlzp ⟨[], 0⟩ [65, 66] [3] 2).dataUsed = 2) := by
  decide

/-- C4 (amended): starting from a fresh decoder (hash 0, empty table), the
refined `unlzp` on data `[0x41, 0x42]`, the single mask byte `0b11111100`
(two clear literal bits, the rest predicted) and `limit = 2` emits exactly
`[0x41, 0x42]`, reports 2 data bytes and 1 mask byte consumed, and leaves the
prediction table updated at the two visited hash positions 0 and 0x41. -/
theorem scenario_literal_bits_amended :
    LZPDecompressor.unlzp ⟨[], 0⟩ [65, 66] [252] 2 =
      ⟨[65, 66], 2, 1, ⟨[(65, 66), (0, 65)], 8386⟩⟩ ∧
    tblGet [(65, 66), (0, 65)] 0 = 65 ∧
    tblGet [(65, 66), (0, 65)] 65 = 66 := by
  decide

/-- C5: `patternexpand` orders all 50 two-character codes before all 50
single-character codes, with `("!A", "porn")` first; the first pass removes
every occurrence of `"!A"` from any input, so no later single-character pass
ever sees a truncated `"A"` of such an occurrence; expanding `"!A"` yields
the full `"porn"`, whereas the single-character pass alone would have
produced `"!in"`. -/
theorem patternexpand_order :
    LZPDecompressor.patternsOrdered.length = 100 ∧
    ((LZPDecompressor.patternsOrdered.take 50).all
      fun kv => kv.1.length == 2) = true ∧
    ((LZPDecompressor.patternsOrdered.drop 50).all
      fun kv => kv.1.length == 1) = true ∧
    LZPDecompressor.patternsOrdered.head? = some (str2c "!A", str2c "porn") ∧
    (∀ s : List Nat,
      containsSeq (str2c "!A")
        (replaceAll (str2c "!A") (str2c "porn") s) = false) ∧
    LZPDecompressor.patternexpand (str2c "!A") = str2c "porn" ∧
    replaceAll (str2c "A") (str2c "in") (str2c "!A") = str2c "!in" ∧
    str2c "!in" ≠ str2c "porn" := by
  refine ⟨by decide, by decide, by decide, by decide, ?_, by decide, by decide, by decide⟩
  intro s
  have h1 : str2c "!A" = [33, 65] := by decide
  have h2 : str2c "porn" = [112, 111, 114, 110] := by decide
  rw [h1, h2]
  exact replaceAll_bangA_free s

/-- C6: the schedule traversal records exactly one result per positive-count
entry — one group's shortfall never aborts the rest — and every shortfall
record carries the required count together with the strictly smaller number
of bytes actually available.  Concretely, requesting 10 bytes when only 4
remain after stream exhaustion records `shortfall 10 4` (a shortfall of
10 - 4 = 6) and the following entry is still processed. -/
theorem shortfall_recorded_and_continue :
    (∀ (decode : LZPState → List Nat → List Nat → Nat → DecodeResult)
       (expand : List Nat → List Nat)
       (sched : List (String × Nat × Nat)) (st : ExtState),
       (runSchedule decode expand st sched).1.length =
         (sched.filter fun e => e.2.2 != 0).length) ∧
    (∀ (decode : LZPState → List Nat → List Nat → Nat → DecodeResult)
       (expand : List Nat → List Nat)
       (sched : List (String × Nat × Nat)) (st : ExtState)
       (z : String) (l c req got : Nat),
       (z, l, c, GroupResult.shortfall req got) ∈
         (runSchedule decode expand st sched).1 →
       req = c ∧ got < req) ∧
    (RefinedPACDecompiler.decompress_domains ⟨[], [0], [], ⟨[], 0⟩⟩
        [("z", 1, 4), ("z", 1, 10), ("z", 1, 2)]).1 =
      [("z", 1, 4, GroupResult.ok [0, 0, 0, 0]),
       ("z", 1, 10, GroupResult.shortfall 10 4),
       ("z", 1, 2, GroupResult.ok [0, 0])] ∧
    10 - 4 = 6 := by
  refine ⟨?_, ?_, by decide, by decide⟩
  · intro decode expand sched st
    exact runSchedule_length decode expand sched st
  · intro decode expand sched st z l c req got h
    exact runSchedule_shortfall_shape decode expand sched st z l c req got h

/-- C6 witness: the shortfall-shape part of the theorem applied to the
concrete run in which entry ("z", 1, 10) fell 6 bytes short. -/
theorem shortfall_recorded_witness : (10 : Nat) = 10 ∧ (4 : Nat) < 10 :=
  shortfall_recorded_and_continue.2.1
    LZPDecompressor.unlzp LZPDecompressor.patternexpand
    [("z", 1, 4), ("z", 1, 10), ("z", 1, 2)] ⟨[], [0], [], ⟨[], 0⟩⟩
    "z" 1 10 10 4 (by decide)

/-- C7: `a2b` is total.  Its transport input is always padded to the base64
block boundary before binary decoding, and whenever the decode fails the
caller receives the empty string together with the reported (non-fatal)
failure flag — never an exception. -/
theorem a2b_total_padded :
    ∀ s : List Nat,
      (LZPDecompressor.a2bPad (LZPDecompressor.patternreplace s)).length % 4 = 0 ∧
      ((LZPDecompressor.a2b s).2 = true → (LZPDecompressor.a2b s).1 = []) := by
  intro s
  refine ⟨a2bPad_mod _, ?_⟩
  intro h
  simp only [LZPDecompressor.a2b] at *
  rcases hb : LZPDecompressor.b64decode
      (LZPDecompressor.a2bPad (LZPDecompressor.patternreplace s)) with _ | bs
  · rfl
  · rw [hb] at h
    simp at h

/-- C7 witness: the theorem applied at the malformed input `"A"`, whose
single transport character cannot form a base64 quad: `a2b` reports the
failure and returns the empty string. -/
theorem a2b_total_witness :
    (LZPDecompressor.a2bPad (LZPDecompressor.patternreplace (str2c "A"))).length % 4 = 0 ∧
    (LZPDecompressor.a2b (str2c "A")).1 = [] :=
  ⟨(a2b_total_padded (str2c "A")).1,
   (a2b_total_padded (str2c "A")).2 (by decide)⟩

/-- C8 counterexample: a successful (zone, length) = ("z", 4) entry whose
requiredCount is 4 — itself a multiple of the record length — expands
`"!Axx"` to `"pornxx"`, a 6-character blob that is NOT a multiple of 4: the
pattern-expansion step destroys the multiple-of-length property. -/
theorem expanded_group_not_multiple :
    (RefinedPACDecompiler.decompress_domains
        ⟨str2c "!Axxabcd", [0], [], ⟨[], 0⟩⟩ [("z", 4, 4)]).1 =
      [("z", 4, 4, GroupResult.ok (str2c "pornxx"))] ∧
    (str2c "pornxx").length % 4 = 2 := by
  decide

/-- C8 (amended): every successful entry's stored group is derived from a
slice of exactly `requiredCount` decoded bytes — in the fixed extractor the
stored text has length exactly `requiredCount` (so it splits into whole
`length`-character records exactly when `requiredCount` is a multiple of
`length`), while the refined extractor stores `patternexpand` of such a
slice, whose length the expansion may change. -/
theorem output_group_exact_slice :
    (∀ (st : ExtState) (sched : List (String × Nat × Nat))
       (z : String) (l c : Nat) (t : List Nat),
       (z, l, c, GroupResult.ok t) ∈
         (FixedPACDecompiler.decompress_domains st sched).1 →
       t.length = c) ∧
    (∀ (st : ExtState) (sched : List (String × Nat × Nat))
       (z : String) (l c : Nat) (t : List Nat),
       (z, l, c, GroupResult.ok t) ∈
         (RefinedPACDecompiler.decompress_domains st sched).1 →
       ∃ u : List Nat, u.length = c ∧ t = LZPDecompressor.patternexpand u) := by
  constructor
  · intro st sched z l c t h
    obtain ⟨u, hu, ht⟩ :=
      runSchedule_ok_shape FixedLZPDecompressor.unlzp (fun l => l) sched st z l c t h
    rw [ht]
    exact hu
  · intro st sched z l c t h
    exact runSchedule_ok_shape LZPDecompressor.unlzp
      LZPDecompressor.patternexpand sched st z l c t h

/-- C8 witness: the fixed-extractor part of the theorem applied to a concrete
run in which entry ("z", 3, 4) succeeds and stores exactly 4 bytes. -/
theorem output_group_exact_slice_witness : ([1, 2, 3, 4] : List Nat).length = 4 :=
  output_group_exact_slice.1 ⟨[1, 2, 3, 4, 5, 6, 7, 8], [0], [], ⟨[], 0⟩⟩
    [("z", 3, 4)] "z" 3 4 [1, 2, 3, 4] (by decide)

/-- C9: the 15-entry mask alphabet round-trips: encoding each mapped symbol
(`patternreplace` with `lzpmask=True`, the symbol-to-code direction) and then
decoding (the table's natural code-to-symbol direction) returns the symbol. -/
theorem mask_alphabet_roundtrip :
    LZPDecompressor.maskPatterns.length = 15 ∧
    (LZPDecompressor.maskPatterns.all fun kv =>
      LZPDecompressor.maskAlphabetDecode
        (LZPDecompressor.patternreplace kv.2) == kv.2) = true := by
  decide

/-- C10: every entry of the domain pattern table replaces a one- or
two-character code with a strictly longer expansion, so `patternexpand`
never shortens its input. -/
theorem patternexpand_never_shortens :
    (LZPDecompressor.patternsOrdered.all
      fun kv => kv.1.length < kv.2.length) = true ∧
    ∀ s : List Nat, s.length ≤ (LZPDecompressor.patternexpand s).length := by
  refine ⟨by decide, ?_⟩
  intro s
  refine foldl_replaceAll_length LZPDecompressor.patternsOrdered ?_ s
  intro kv hkv
  have hall : (LZPDecompressor.patternsOrdered.all
      fun kv => kv.1.length < kv.2.length) = true := by decide
  rw [List.all_eq_true] at hall
  have := hall kv hkv
  simp only [decide_eq_true_eq] at this
  omega


/-- C1 counterexample: the fixed `unlzp` checks the limit only after a whole
mask byte, so with `limit = 2` it returns 4 bytes — more than N. -/
theorem fixed_unlzp_exceeds_limit :
    (FixedLZPDecompressor.unlzp ⟨[], 0⟩ [65, 66] [3] 2).out.length = 4 ∧
    ¬ ((FixedLZPDecompressor.unlzp ⟨[], 0⟩ [65, 66] [3] 2).out.length ≤ 2) := by
  decide

/-- C1 (amended): for the refined `LZPDecompressor.unlzp`, on every data
stream, mask stream and limit N, the decoded output has length at most N,
the reported consumed counts never exceed the stream lengths, and the call
depends only on the consumed prefixes: re-running it on exactly those
prefixes reproduces the result byte for byte — so slicing the reported
prefixes off resumes decoding without re-reading consumed bytes or skipping
unread ones. -/
theorem unlzp_limit_and_resume :
    ∀ (st : LZPState) (d m : List Nat) (lim : Nat),
      (LZPDecompressor.unlzp st d m lim).out.length ≤ lim ∧
      (LZPDecompressor.unlzp st d m lim).dataUsed ≤ d.length ∧
      (LZPDecompressor.unlzp st d m lim).maskUsed ≤ m.length ∧
      LZPDecompressor.unlzp st
          (d.take (LZPDecompressor.unlzp st d m lim).dataUsed)
          (m.take (LZPDecompressor.unlzp st d m lim).maskUsed) lim =
        LZPDecompressor.unlzp st d m lim := by
  intro st d m lim
  have e := LZPDecompressor.unlzp_eq st d m lim
  refine ⟨?_, ?_, ?_, ?_⟩
  · rw [e]
    dsimp only
    have := LZPDecompressor.loop_out_len d lim m st.table 0 0 0 0
    omega
  · rw [e]
    dsimp only
    exact LZPDecompressor.loop_dpos_bound d lim m st.table 0 0 0 0 (Nat.zero_le _)
  · rw [e]
    dsimp only
    have := LZPDecompressor.loop_maskpos_bound d lim m st.table 0 0 0 0
    omega
  · have hDu : (LZPDecompressor.unlzp st d m lim).dataUsed =
        (LZPDecompressor.loop d lim m st.table 0 0 0 0).dpos := by
      rw [e]
    have hMu : (LZPDecompressor.unlzp st d m lim).maskUsed =
        (LZPDecompressor.loop d lim m st.table 0 0 0 0).maskpos := by
      rw [e]
    rw [hDu, hMu]
    have h1 : LZPDecompressor.loop
        (d.take (LZPDecompressor.loop d lim m st.table 0 0 0 0).dpos) lim m
        st.table 0 0 0 0 = LZPDecompressor.loop d lim m st.table 0 0 0 0 :=
      LZPDecompressor.loop_data_take lim d m st.table 0 0 0 0
        (LZPDecompressor.loop d lim m st.table 0 0 0 0).dpos (Nat.le_refl _)
    have h2 := LZPDecompressor.loop_mask_take
      (d.take (LZPDecompressor.loop d lim m st.table 0 0 0 0).dpos) lim m
      st.table 0 0 0 0
    rw [h1] at h2
    simp only [Nat.sub_zero] at h2
    rw [LZPDecompressor.unlzp_eq, e, h2]

/-- C2 counterexample: a first refined-`unlzp` call ends with rolling hash
8386 and a table in which position 0 holds 65 while position 8386 is unset
(0); a second call on the resulting state with a predicted bit emits 65 —
the table entry at hash 0 — not the entry at 8386, so the rolling hash did
NOT hold the value left by the previous call: line 151 resets it. -/
theorem refined_unlzp_resets_hash :
    (LZPDecompressor.unlzp ⟨[], 0⟩ [65, 66] [252] 2).state.hashVal = 8386 ∧
    (8386 : Nat) ≠ 0 ∧
    (LZPDecompressor.unlzp
        (LZPDecompressor.unlzp ⟨[], 0⟩ [65, 66] [252] 2).state [] [1] 1).out =
      [65] ∧
    tblGet (LZPDecompressor.unlzp ⟨[], 0⟩ [65, 66] [252] 2).state.table 8386 = 0 ∧
    (65 : Nat) ≠ 0 := by
  decide

/-- C2 (amended): the prediction table persists across consecutive `unlzp`
calls in both decompressor variants, and the rolling hash persists in the
fixed variant (its first predicted byte reads the table at the incoming
hash); the refined variant instead resets the rolling hash to 0 at the start
of each call (its first predicted byte reads the table at 0, whatever the
incoming hash).  Decoding schedule entries in a different order still yields
different output for the reordered groups, concretely exhibited on the fixed
extractor: group B's recorded text differs between the two orders because
prediction history differs. -/
theorem state_persistence_amended :
    (∀ (st : LZPState) (d : List Nat) (mb lim : Nat),
       mb.testBit 0 = true →
       (FixedLZPDecompressor.unlzp st d [mb] lim).out.head? =
         some (tblGet st.table st.hashVal)) ∧
    (∀ (st : LZPState) (d : List Nat) (mb : Nat) (ms : List Nat) (lim : Nat),
       1 ≤ lim → mb.testBit 0 = true →
       (LZPDecompressor.unlzp st d (mb :: ms) lim).out.head? =
         some (tblGet st.table 0)) ∧
    (FixedPACDecompiler.decompress_domains ⟨[65, 66], [252, 255], [], ⟨[], 0⟩⟩
        [("A", 8, 8), ("B", 8, 8)]).1 =
      [("A", 8, 8, GroupResult.ok [65, 66, 0, 0, 0, 65, 66, 0]),
       ("B", 8, 8, GroupResult.ok [0, 0, 65, 66, 0, 0, 0, 65])] ∧
    (FixedPACDecompiler.decompress_domains ⟨[65, 66], [252, 255], [], ⟨[], 0⟩⟩
        [("B", 8, 8), ("A", 8, 8)]).1 =
      [("B", 8, 8, GroupResult.ok [65, 66, 0, 0, 0, 65, 66, 0]),
       ("A", 8, 8, GroupResult.ok [0, 0, 65, 66, 0, 0, 0, 65])] ∧
    ([0, 0, 65, 66, 0, 0, 0, 65] : List Nat) ≠ [65, 66, 0, 0, 0, 65, 66, 0] := by
  refine ⟨?_, ?_, by decide, by decide, by decide⟩
  · intro st d mb lim hbit
    exact FixedLZPDecompressor.unlzp_single_head st d mb lim hbit
  · intro st d mb ms lim hlim hbit
    exact LZPDecompressor.unlzp_head_reset st d mb ms lim hlim hbit

/-- C2 witness: both persistence statements applied at concrete states whose
table distinguishes the incoming hash from hash 0. -/
theorem state_persistence_witness :
    (FixedLZPDecompressor.unlzp ⟨[(5, 9)], 5⟩ [] [1] 0).out.head? =
      some (tblGet [(5, 9)] 5) ∧
    (LZPDecompressor.unlzp ⟨[(0, 7), (5, 9)], 5⟩ [] [1] 1).out.head? =
      some (tblGet [(0, 7), (5, 9)] 0) :=
  ⟨state_persistence_amended.1 ⟨[(5, 9)], 5⟩ [] 1 0 (by decide),
   state_persistence_amended.2.1 ⟨[(0, 7), (5, 9)], 5⟩ [] 1 [] 1
     (by decide) (by decide)⟩

/-- C3 counterexample: with an all-zero mask byte and an exhausted data
stream, the fixed `unlzp` emits NOTHING (its bit loop breaks on exhaustion),
while the refined decoder emits the eight literal zeros the claim requires —
the claim is false of the fixed variant. -/
theorem fixed_unlzp_drops_exhausted_emission :
    (FixedLZPDecompressor.unlzp ⟨[], 0⟩ [] [0] 8).out = [] ∧
    (LZPDecompressor.unlzp ⟨[], 0⟩ [] [0] 8).out = [0, 0, 0, 0, 0, 0, 0, 0] ∧
    ([] : List Nat) ≠ [0, 0, 0, 0, 0, 0, 0, 0] := by
  decide

/-- C3 (amended): in the refined `LZPDecompressor.unlzp`, every 0 mask bit
met with an exhausted data stream emits the literal byte 0 (and stores 0 into
the prediction table at the current hash); on the non-exhausted 0-bit path
the next data byte is stored into the table and emitted.  Each emitted byte
is consed onto the bit loop's output and each byte's output is appended into
the call's returned output, so the literal zeros are preserved, not dropped
or treated as errors. -/
theorem zero_bit_emission_amended :
    (∀ (t : List (Nat × Nat)) (h : Nat) (d : List Nat) (dpos : Nat),
       d.length ≤ dpos →
       LZPDecompressor.step t h d dpos false =
         (0, dpos, tblSet t h 0, hashStep h 0)) ∧
    (∀ (t : List (Nat × Nat)) (h : Nat) (d : List Nat) (dpos : Nat),
       dpos < d.length →
       LZPDecompressor.step t h d dpos false =
         (d.getD dpos 0, dpos + 1, tblSet t h (d.getD dpos 0),
          hashStep h (d.getD dpos 0))) ∧
    (∀ (d : List Nat) (lim mb fuel pos : Nat) (t : List (Nat × Nat))
       (h dpos outLen : Nat), outLen < lim →
       (LZPDecompressor.bits d lim mb (fuel + 1) pos t h dpos outLen).out =
         (LZPDecompressor.step t h d dpos (mb.testBit pos)).1 ::
           (LZPDecompressor.bits d lim mb fuel (pos + 1)
             (LZPDecompressor.step t h d dpos (mb.testBit pos)).2.2.1
             (LZPDecompressor.step t h d dpos (mb.testBit pos)).2.2.2
             (LZPDecompressor.step t h d dpos (mb.testBit pos)).2.1
             (outLen + 1)).out) ∧
    (∀ (d : List Nat) (lim mb : Nat) (ms : List Nat) (t : List (Nat × Nat))
       (h dpos maskpos outLen : Nat), outLen < lim →
       (LZPDecompressor.loop d lim (mb :: ms) t h dpos maskpos outLen).out =
         (LZPDecompressor.bits d lim mb 8 0 t h dpos outLen).out ++
           (LZPDecompressor.loop d lim ms
             (LZPDecompressor.bits d lim mb 8 0 t h dpos outLen).tbl
             (LZPDecompressor.bits d lim mb 8 0 t h dpos outLen).h
             (LZPDecompressor.bits d lim mb 8 0 t h dpos outLen).dpos
             (maskpos + 1)
             (outLen +
               (LZPDecompressor.bits d lim mb 8 0 t h dpos outLen).out.length)).out) := by
  refine ⟨?_, ?_, ?_, ?_⟩
  · intro t h d dpos hd
    exact LZPDecompressor.step_false_exhausted t h d dpos hd
  · intro t h d dpos hd
    exact LZPDecompressor.step_false_read t h d dpos hd
  · intro d lim mb fuel pos t h dpos outLen hlim
    rw [LZPDecompressor.bits_succ d lim mb fuel pos t h dpos outLen hlim]
  · intro d lim mb ms t h dpos maskpos outLen hlim
    rw [LZPDecompressor.loop_succ d lim mb ms t h dpos maskpos outLen hlim]

/-- C3 witness: the exhausted-path and literal-path characterisations and the
output-cons equation applied at concrete arguments. -/
theorem zero_bit_emission_witness :
    LZPDecompressor.step [] 5 [] 0 false = (0, 0, tblSet [] 5 0, hashStep 5 0) ∧
    LZPDecompressor.step [] 5 [7] 0 false =
      (7, 1, tblSet [] 5 7, hashStep 5 7) ∧
    (LZPDecompressor.bits [] 4 0 1 0 [] 5 0 0).out =
      (LZPDecompressor.step [] 5 [] 0 false).1 ::
        (LZPDecompressor.bits [] 4 0 0 1
          (LZPDecompressor.step [] 5 [] 0 false).2.2.1
          (LZPDecompressor.step [] 5 [] 0 false).2.2.2
          (LZPDecompressor.step [] 5 [] 0 false).2.1 1).out :=
  ⟨zero_bit_emission_amended.1 [] 5 [] 0 (by decide),
   zero_bit_emission_amended.2.1 [] 5 [7] 0 (by decide),
   zero_bit_emission_amended.2.2.1 [] 4 0 0 0 [] 5 0 0 (by decide)⟩

end PAC
